import Mathlib

/-!
Shallow embedding of the `better-psl` public-suffix parser
(`src/index.ts`, `src/constants/error-codes.ts`, `src/validator.ts`).

JavaScript strings are modelled by Lean `String`; a JS array of labels by
`List String`.  The external `punycode.toASCII` codec (an npm dependency,
not part of this repository) is a parameter `toASCII : String → String`
of every definition that calls it, and the bundled rule list
(`src/data/rules.js`, generated data) is a parameter as well, so every
theorem quantifies over them.  JS `String.prototype.length` counts UTF-16
code units; we model it by the number of characters, which agrees on all
strings free of surrogate pairs (in particular on every ASCII string the
parser's checks are concerned with).
-/

/-- The seven validation error codes of `constants/error-codes.ts`. -/
inductive ErrorCode where
  | DOMAIN_TOO_SHORT
  | DOMAIN_TOO_LONG
  | LABEL_STARTS_WITH_DASH
  | LABEL_ENDS_WITH_DASH
  | LABEL_TOO_LONG
  | LABEL_TOO_SHORT
  | LABEL_INVALID_CHARS
deriving DecidableEq, Repr

/-- The fixed message attached to each code (`errorCodes` object). -/
def errorCodes : ErrorCode → String
  | .DOMAIN_TOO_SHORT => "Domain name too short."
  | .DOMAIN_TOO_LONG => "Domain name too long. It should be no more than 255 chars."
  | .LABEL_STARTS_WITH_DASH => "Domain name label can not start with a dash."
  | .LABEL_ENDS_WITH_DASH => "Domain name label can not end with a dash."
  | .LABEL_TOO_LONG => "Domain name label should be at most 63 chars long."
  | .LABEL_TOO_SHORT => "Domain name label should be at least 1 character long."
  | .LABEL_INVALID_CHARS =>
      "Domain name label can only contain alphanumeric characters or dashes."

/-- JS `String.prototype.toLowerCase`, character by character.
`Char.toLower` lowercases exactly the basic-latin letters `A`–`Z`,
matching JS on the ASCII strings this parser handles. -/
def jsToLower (s : String) : String := ⟨s.data.map Char.toLower⟩

/-- JS `str.split(".")` on the character list: splits at every `'.'`,
keeping empty pieces (so `"" ↦ [""]`, `"a." ↦ ["a", ""]`). -/
def splitChars : List Char → List String
  | [] => [""]
  | c :: rest =>
    if c = '.' then "" :: splitChars rest
    else
      match splitChars rest with
      | s :: ss => String.mk (c :: s.data) :: ss
      | [] => [String.mk [c]]

/-- JS `domain.split(".")`. -/
def splitDots (s : String) : List String := splitChars s.data

/-- JS `parts.join(".")`. -/
def joinDots : List String → String
  | [] => ""
  | [x] => x
  | x :: y :: xs => x ++ "." ++ joinDots (y :: xs)

/-- The character class of the label regex `/^[a-z0-9\-_]+$/`. -/
def isAllowedLabelChar (c : Char) : Bool :=
  ('a' ≤ c && c ≤ 'z') || ('0' ≤ c && c ≤ '9') || c = '-' || c = '_'

/-- JS `/^[a-z0-9\-_]+$/.test(label)`: anchored at both ends with a `+`,
so it holds iff the label is non-empty and every character is allowed. -/
def labelRegexTest (label : String) : Bool :=
  decide (label.data ≠ []) && label.data.all isAllowedLabelChar

/-- The per-label checks of `validate`, in source order, first failure wins
(lines 80–94 of `src/index.ts`). -/
def checkLabel (label : String) : Option ErrorCode :=
  if label.length = 0 then some .LABEL_TOO_SHORT
  else if 63 < label.length then some .LABEL_TOO_LONG
  else if label.data.head? = some '-' then some .LABEL_STARTS_WITH_DASH
  else if label.data.getLast? = some '-' then some .LABEL_ENDS_WITH_DASH
  else if !labelRegexTest label then some .LABEL_INVALID_CHARS
  else none

/-- The `for` loop of `validate`: left-to-right over the labels,
returning the first failing label's code. -/
def checkLabels : List String → Option ErrorCode
  | [] => none
  | l :: ls =>
    match checkLabel l with
    | some e => some e
    | none => checkLabels ls

/-- Model of `validate` (lines 63–96): ASCII-encode, check whole-string length,
then each dot-separated label. -/
def validate (toASCII : String → String) (input : String) : Option ErrorCode :=
  let ascii := toASCII input
  if ascii.length < 1 then some .DOMAIN_TOO_SHORT
  else if 255 < ascii.length then some .DOMAIN_TOO_LONG
  else checkLabels (splitDots ascii)

/-- A parsed rule descriptor, the value stored in `rulesByPunySuffix`. -/
structure PslRule where
  rule : String
  suffix : String
  punySuffix : String
  wildcard : Bool
  exception : Bool
deriving DecidableEq, Repr

/-- Model of the anchored replace in line 9: strip one leading `*.` or `!`
from a rule line (the wildcard alternative is tried first). -/
def stripRuleMarker (rule : String) : String :=
  if rule.data.take 2 = ['*', '.'] then ⟨rule.data.drop 2⟩
  else if rule.data.take 1 = ['!'] then ⟨rule.data.drop 1⟩
  else rule

/-- Build the descriptor for one rule line (the body of the `reduce`
callback, lines 9–23). `charAt(0)` is the head character. -/
def mkRule (toASCII : String → String) (rule : String) : PslRule :=
  let suffix := stripRuleMarker rule
  { rule := rule
    suffix := suffix
    punySuffix := toASCII suffix
    wildcard := rule.data.head? = some '*'
    exception := rule.data.head? = some '!' }

/-- The `Map` accumulated by the `reduce` of lines 8–26, as an
insertion-ordered association list with unique keys. -/
abbrev RuleMap := List (String × PslRule)

/-- The fold of lines 8–26: insert each rule keyed by its ASCII suffix,
throwing (modelled by `Except.error`) when the key is already present. -/
def rulesByPunySuffixAux (toASCII : String → String) (acc : RuleMap) :
    List String → Except String RuleMap
  | [] => .ok acc
  | rule :: rest =>
    let r := mkRule toASCII rule
    if (acc.lookup r.punySuffix).isSome then
      .error ("Multiple rules found for " ++ rule ++ " (" ++ r.punySuffix ++ ")")
    else rulesByPunySuffixAux toASCII (acc ++ [(r.punySuffix, r)]) rest

/-- Model of `rulesByPunySuffix`: the whole fold over the rule list. -/
def rulesByPunySuffix (toASCII : String → String) (rules : List String) :
    Except String RuleMap :=
  rulesByPunySuffixAux toASCII [] rules

/-- The `for` loop of `findRule` (lines 33–39) on the chunk list: try the
suffix starting at each position from the left, first hit wins. -/
def findRuleAux (ruleMap : RuleMap) : List String → Option PslRule
  | [] => none
  | c :: cs =>
    match ruleMap.lookup (joinDots (c :: cs)) with
    | some r => some r
    | none => findRuleAux ruleMap cs

/-- Model of `findRule` (lines 29–41): ASCII-encode the domain, split on dots, and
search from the full domain down to the last label. -/
def findRule (toASCII : String → String) (ruleMap : RuleMap) (domain : String) :
    Option PslRule :=
  findRuleAux ruleMap (splitDots (toASCII domain))

/-- The `parsed` record (type `ParseReturnType`). -/
structure Parsed where
  input : String
  tld : Option String := none
  sld : Option String := none
  domain : Option String := none
  subdomain : Option String := none
  listed : Bool := false
deriving DecidableEq, Repr

/-- The `error` record (type `ParseReturnTypeOnError`). -/
structure ParseError where
  input : String
  message : String
  code : ErrorCode
deriving DecidableEq, Repr

/-- Result of `parse`: an `error` record or a `parsed` record, never both. -/
inductive ParseResult where
  | error (e : ParseError)
  | parsed (p : Parsed)
deriving DecidableEq, Repr

/-- JS truthiness of an optional string field: `null` and `""` are falsy. -/
def truthy : Option String → Bool
  | none => false
  | some s => decide (s ≠ "")

/-- Occurrence test for a pattern anywhere in a character list. -/
def containsSeq (pat : List Char) : List Char → Bool
  | [] => pat.isPrefixOf []
  | c :: cs => pat.isPrefixOf (c :: cs) || containsSeq pat cs

/-- Model of the regular-expression test for the literal marker string
"xn--" used by handlePunycode: true iff the marker occurs in the string. -/
def hasXnMarker (s : String) : Bool := containsSeq "xn--".data s.data

/-- Model of `handlePunycode` (lines 158–169): when the lowercased domain contains
the `xn--` marker, re-encode the truthy `domain`/`subdomain` fields. -/
def handlePunycode (toASCII : String → String) (domain : String) (parsed : Parsed) :
    Parsed :=
  if !hasXnMarker domain then parsed
  else
    let p1 :=
      if truthy parsed.domain then { parsed with domain := parsed.domain.map toASCII }
      else parsed
    if truthy p1.subdomain then { p1 with subdomain := p1.subdomain.map toASCII }
    else p1

/-- JS `arr.slice(0, e)` with a possibly negative end index `e`:
a negative end counts from the end of the array, clamped at `0`. -/
def jsSliceUpTo (l : List String) (e : Int) : List String :=
  if 0 ≤ e then l.take e.toNat else l.take (max ((l.length : Int) + e) 0).toNat

/-- Rendering of an optional label inside a JS array join: a popped-out
null or undefined entry renders as the empty string. -/
def optStr : Option String → String
  | none => ""
  | some s => s

/-- Steps 1 of `parse` (lines 121–128): lowercase, then strip exactly one
trailing dot when the last character is a dot. -/
def normalizeDomain (input : String) : String :=
  let d := jsToLower input
  if d.data.getLast? = some '.' then ⟨d.data.dropLast⟩ else d

/-- The unlisted-TLD branch of `parse` (lines 174–186).  Note the source
pops a single label into `subdomain`, it does not join the remainder. -/
def parseUnlisted (toASCII : String → String) (domain : String) (parsed0 : Parsed)
    (domainParts : List String) : ParseResult :=
  if domainParts.length < 2 then .parsed parsed0
  else
    let tld := domainParts.getLast?
    let rest1 := domainParts.dropLast
    let sld := rest1.getLast?
    let rest2 := rest1.dropLast
    let dom := optStr sld ++ "." ++ optStr tld
    let sub := if rest2.length ≠ 0 then rest2.getLast? else none
    .parsed (handlePunycode toASCII domain
      { parsed0 with tld := tld, sld := sld, domain := some dom, subdomain := sub })

/-- The listed branch of `parse` (lines 188–223): split off the rule's
suffix labels, carve out the exception label, consume one label for a
wildcard, then derive `sld`/`domain`/`subdomain`. -/
def parseListed (toASCII : String → String) (domain : String) (parsed0 : Parsed)
    (domainParts : List String) (rule : PslRule) : ParseResult :=
  let tldParts0 := splitDots rule.suffix
  let privateParts0 :=
    jsSliceUpTo domainParts ((domainParts.length : Int) - (tldParts0.length : Int))
  let pt :=
    if rule.exception then
      match tldParts0 with
      | t :: restT => (privateParts0 ++ [t], restT)
      | [] => (privateParts0, ([] : List String))
    else (privateParts0, tldParts0)
  let privateParts1 := pt.1
  let tldParts1 := pt.2
  let tld1 := joinDots tldParts1
  if privateParts1.length = 0 then
    .parsed (handlePunycode toASCII domain
      { parsed0 with listed := true, tld := some tld1 })
  else
    let wt :=
      if rule.wildcard then
        (privateParts1.dropLast, optStr privateParts1.getLast? :: tldParts1)
      else (privateParts1, tldParts1)
    let privateParts2 := wt.1
    let tld2 := joinDots wt.2
    if privateParts2.length = 0 then
      .parsed (handlePunycode toASCII domain
        { parsed0 with listed := true, tld := some tld2 })
    else
      let sld := privateParts2.getLast?
      let priv3 := privateParts2.dropLast
      let dom := optStr sld ++ "." ++ tld2
      let sub := if priv3.length ≠ 0 then some (joinDots priv3) else none
      .parsed (handlePunycode toASCII domain
        { parsed0 with listed := true, tld := some tld2, sld := sld,
                       domain := some dom, subdomain := sub })

/-- Body of `parse` after the input has been lowercased and dot-stripped
(lines 130–223): validate, shortcut `.local`, look up a rule, branch. -/
def parseDomain (toASCII : String → String) (ruleMap : RuleMap)
    (input : String) (domain : String) : ParseResult :=
  match validate toASCII domain with
  | some code => .error { input := input, message := errorCodes code, code := code }
  | none =>
    let parsed0 : Parsed := { input := input }
    let domainParts := splitDots domain
    if domainParts.getLast? = some "local" then .parsed parsed0
    else
      match findRule toASCII ruleMap domain with
      | none => parseUnlisted toASCII domain parsed0 domainParts
      | some rule => parseListed toASCII domain parsed0 domainParts rule

/-- Model of `parse` (lines 116–224) on a string argument. -/
def parse (toASCII : String → String) (ruleMap : RuleMap) (input : String) :
    ParseResult :=
  parseDomain toASCII ruleMap input (normalizeDomain input)

/-- A JS argument to `parse`: either a string or any non-string value
(all non-strings behave identically at the `typeof` guard). -/
inductive JsInput where
  | str (s : String)
  | notAString
deriving DecidableEq, Repr

/-- Model of `parse` including its dynamic `typeof input !== "string"` guard
(lines 117–119); a thrown `TypeError` is modelled by `Except.error`. -/
def parseJS (toASCII : String → String) (ruleMap : RuleMap) (v : JsInput) :
    Except String ParseResult :=
  match v with
  | .notAString => .error "Domain name must be a string."
  | .str s => .ok (parse toASCII ruleMap s)

/-- Replace the recorded input of a parse outcome (both variants record
the original argument in their `input` field). -/
def setInput : ParseResult → String → ParseResult
  | .error e, i => .error { e with input := i }
  | .parsed p, i => .parsed { p with input := i }

example : splitDots "a.b" = ["a", "b"] := by decide
example : splitDots "" = [""] := by decide
example : splitDots "a." = ["a", ""] := by decide
example : joinDots ["a", "b", "c"] = "a.b.c" := by decide
example : parse (fun s => s) [] "example" =
    .parsed { input := "example" } := by decide

/-! ### Basic facts about the string helpers -/

theorem str_data_append (a b : String) : (a ++ b).data = a.data ++ b.data := rfl

theorem str_length_append (a b : String) : (a ++ b).length = a.length + b.length := by
  show (a ++ b).data.length = a.data.length + b.data.length
  rw [str_data_append, List.length_append]

theorem splitChars_ne_nil : ∀ l : List Char, splitChars l ≠ []
  | [] => by simp [splitChars]
  | c :: rest => by
    simp only [splitChars]
    split
    · simp
    · split <;> simp

theorem joinDots_cons_of_ne_nil (x : String) {xs : List String} (h : xs ≠ []) :
    joinDots (x :: xs) = x ++ "." ++ joinDots xs := by
  cases xs with
  | nil => exact absurd rfl h
  | cons y ys => rfl

theorem joinDots_splitChars : ∀ l : List Char, joinDots (splitChars l) = ⟨l⟩
  | [] => rfl
  | c :: rest => by
    have ih := joinDots_splitChars rest
    simp only [splitChars]
    split
    · rename_i hdot
      subst hdot
      rw [joinDots_cons_of_ne_nil _ (splitChars_ne_nil rest), ih]
      rfl
    · rename_i hne
      cases hsp : splitChars rest with
      | nil => exact absurd hsp (splitChars_ne_nil rest)
      | cons s ss =>
        rw [hsp] at ih
        cases ss with
        | nil =>
          simp only [joinDots] at ih ⊢
          rw [ih]
        | cons s2 ss2 =>
          rw [joinDots_cons_of_ne_nil _ (by simp)] at ih ⊢
          apply String.ext
          rw [str_data_append, str_data_append]
          have ihd := congrArg String.data ih
          rw [str_data_append, str_data_append] at ihd
          show (c :: s.data) ++ _ ++ _ = _
          rw [List.cons_append, List.cons_append, ihd]

theorem joinDots_splitDots (s : String) : joinDots (splitDots s) = s := by
  have := joinDots_splitChars s.data
  rw [splitDots, this]

theorem joinDots_length_cons (x : String) {xs : List String} (h : xs ≠ []) :
    (joinDots (x :: xs)).length = x.length + 1 + (joinDots xs).length := by
  rw [joinDots_cons_of_ne_nil x h, str_length_append, str_length_append]
  rfl

theorem joinDots_drop_length_le :
    ∀ (l : List String) (j : Nat), j < l.length →
      (joinDots (l.drop j)).length + j ≤ (joinDots l).length
  | [], j, h => by simp at h
  | c :: cs, 0, _ => by simp
  | c :: cs, j + 1, h => by
    have hj : j < cs.length := by simpa using h
    have ih := joinDots_drop_length_le cs j hj
    have hne : cs ≠ [] := by
      intro hc
      rw [hc] at hj
      simp at hj
    rw [List.drop_succ_cons, joinDots_length_cons c hne]
    omega

theorem joinDots_drop_length_lt {l : List String} {k j : Nat}
    (hkj : k < j) (hj : j < l.length) :
    (joinDots (l.drop j)).length < (joinDots (l.drop k)).length := by
  have hdd : l.drop j = (l.drop k).drop (j - k) := by
    rw [List.drop_drop]
    congr 1
    omega
  have hlen : j - k < (l.drop k).length := by
    rw [List.length_drop]
    omega
  have := joinDots_drop_length_le (l.drop k) (j - k) hlen
  rw [← hdd] at this
  omega

/-! ### Facts about association-list lookups -/

theorem lookup_isSome_iff_mem (m : RuleMap) (k : String) :
    (m.lookup k).isSome = true ↔ k ∈ m.map Prod.fst := by
  induction m with
  | nil => simp [List.lookup]
  | cons kv rest ih =>
    cases kv with
    | mk a b =>
      by_cases hak : a = k
      · subst hak
        simp [List.lookup]
      · have hbeq : (k == a) = false := by
          simp [Ne.symm hak]
        simp [List.lookup, hbeq, ih, Ne.symm hak]

theorem lookup_append_right {m1 m2 : RuleMap} {k : String}
    (h : k ∉ m1.map Prod.fst) :
    (m1 ++ m2).lookup k = m2.lookup k := by
  induction m1 with
  | nil => rfl
  | cons kv rest ih =>
    cases kv with
    | mk a b =>
      simp only [List.map_cons, List.mem_cons] at h
      push_neg at h
      have hbeq : (k == a) = false := by
        simp [h.1]
      simp [List.lookup, hbeq, ih h.2]

/-! ### The search order of findRule -/

theorem findRuleAux_first_hit :
    ∀ (m : RuleMap) (chunks : List String) (i : Nat), i < chunks.length →
      (m.lookup (joinDots (chunks.drop i))).isSome = true →
      ∃ k, k ≤ i ∧
        findRuleAux m chunks = m.lookup (joinDots (chunks.drop k)) ∧
        (m.lookup (joinDots (chunks.drop k))).isSome = true
  | m, [], i, hi, _ => by simp at hi
  | m, c :: cs, i, hi, hhit => by
    cases hlk : m.lookup (joinDots (c :: cs)) with
    | some r =>
      refine ⟨0, Nat.zero_le i, ?_, ?_⟩
      · simp only [findRuleAux, hlk, List.drop_zero]
      · simp [hlk]
    | none =>
      cases i with
      | zero =>
        rw [List.drop_zero] at hhit
        rw [hlk] at hhit
        simp at hhit
      | succ i' =>
        have hi' : i' < cs.length := by simpa using hi
        have hhit' : (m.lookup (joinDots (cs.drop i'))).isSome = true := by
          simpa using hhit
        obtain ⟨k', hk'le, heq, hsome⟩ := findRuleAux_first_hit m cs i' hi' hhit'
        refine ⟨k' + 1, by omega, ?_, by simpa using hsome⟩
        simp only [findRuleAux, hlk, List.drop_succ_cons]
        exact heq

/-! ### Facts about the validator -/

theorem checkLabels_eq_none_iff (ls : List String) :
    checkLabels ls = none ↔ ∀ l ∈ ls, checkLabel l = none := by
  induction ls with
  | nil => simp [checkLabels]
  | cons l ls ih =>
    simp only [checkLabels]
    cases h : checkLabel l with
    | some e => simp [h]
    | none => simp [h, ih]

theorem checkLabels_first_failure (pre : List String) (l : String) (post : List String)
    (hpre : ∀ l' ∈ pre, checkLabel l' = none) (hl : checkLabel l ≠ none) :
    checkLabels (pre ++ l :: post) = checkLabel l := by
  induction pre with
  | nil =>
    simp only [List.nil_append, checkLabels]
    cases h : checkLabel l with
    | some e => rfl
    | none => exact absurd h hl
  | cons p ps ih =>
    have hp : checkLabel p = none := hpre p (by simp)
    simp only [List.cons_append, checkLabels, hp]
    exact ih fun l' hl' => hpre l' (by simp [hl'])

theorem checkLabel_eq_none_iff (l : String) :
    checkLabel l = none ↔
      l.length ≠ 0 ∧ l.length ≤ 63 ∧ l.data.head? ≠ some '-' ∧
      l.data.getLast? ≠ some '-' ∧ l.data.all isAllowedLabelChar = true := by
  have hdl : l.data.length = l.length := rfl
  unfold checkLabel labelRegexTest
  by_cases h0 : l.length = 0
  · simp [h0]
  · rw [if_neg h0]
    by_cases h1 : 63 < l.length
    · rw [if_pos h1]
      simp only [reduceCtorEq, false_iff, not_and]
      intro _ hle
      omega
    · rw [if_neg h1]
      by_cases h2 : l.data.head? = some '-'
      · simp [h2]
      · rw [if_neg h2]
        by_cases h3 : l.data.getLast? = some '-'
        · simp [h3]
        · rw [if_neg h3]
          have hne : l.data ≠ [] := by
            intro hc
            apply h0
            rw [← hdl, hc]
            rfl
          by_cases h4 : l.data.all isAllowedLabelChar = true
          · have hcond :
                (!(decide (l.data ≠ []) && l.data.all isAllowedLabelChar)) = false := by
              simp [hne, h4]
            rw [hcond, if_neg (by simp : ¬ (false = true))]
            exact iff_of_true rfl ⟨h0, by omega, h2, h3, h4⟩
          · have hcond :
                (!(decide (l.data ≠ []) && l.data.all isAllowedLabelChar)) = true := by
              simp [hne, h4]
            rw [hcond, if_pos (rfl : (true = true))]
            exact iff_of_false (by simp) fun hc => h4 hc.2.2.2.2

/-! ### Construction of the rule index -/

theorem rulesByPunySuffixAux_ok (toASCII : String → String) :
    ∀ (rules : List String) (acc : RuleMap),
      (acc.map Prod.fst ++ rules.map fun r => (mkRule toASCII r).punySuffix).Nodup →
      rulesByPunySuffixAux toASCII acc rules =
        .ok (acc ++ rules.map fun r => ((mkRule toASCII r).punySuffix, mkRule toASCII r))
  | [], acc, _ => by simp [rulesByPunySuffixAux]
  | rule :: rest, acc, hnd => by
    have hkey : (mkRule toASCII rule).punySuffix ∉ acc.map Prod.fst := by
      rw [List.nodup_append] at hnd
      intro hmem
      exact hnd.2.2 hmem (by simp)
    have hlk : (acc.lookup (mkRule toASCII rule).punySuffix).isSome = false := by
      rw [← Bool.not_eq_true, lookup_isSome_iff_mem]
      exact hkey
    simp only [rulesByPunySuffixAux, hlk, Bool.false_eq_true, if_false]
    have hnd' : ((acc ++ [((mkRule toASCII rule).punySuffix, mkRule toASCII rule)]).map
        Prod.fst ++ rest.map fun r => (mkRule toASCII r).punySuffix).Nodup := by
      rw [List.map_append, List.append_assoc]
      simpa using hnd
    rw [rulesByPunySuffixAux_ok toASCII rest _ hnd']
    simp

theorem rulesByPunySuffixAux_err (toASCII : String → String) :
    ∀ (rules : List String) (acc : RuleMap),
      ¬ (acc.map Prod.fst ++ rules.map fun r => (mkRule toASCII r).punySuffix).Nodup →
      (acc.map Prod.fst).Nodup →
      ∃ msg, rulesByPunySuffixAux toASCII acc rules = .error msg
  | [], acc, hnd, haccnd => by
    simp only [List.map_nil, List.append_nil] at hnd
    exact absurd haccnd hnd
  | rule :: rest, acc, hnd, haccnd => by
    cases hlk : (acc.lookup (mkRule toASCII rule).punySuffix).isSome with
    | true =>
      refine ⟨"Multiple rules found for " ++ rule ++ " (" ++
        (mkRule toASCII rule).punySuffix ++ ")", ?_⟩
      simp only [rulesByPunySuffixAux, hlk, if_true]
    | false =>
      have hkey : (mkRule toASCII rule).punySuffix ∉ acc.map Prod.fst := by
        rw [← lookup_isSome_iff_mem, hlk]
        simp
      have hnd' : ¬ ((acc ++ [((mkRule toASCII rule).punySuffix, mkRule toASCII rule)]).map
          Prod.fst ++ rest.map fun r => (mkRule toASCII r).punySuffix).Nodup := by
        rw [List.map_append, List.append_assoc]
        simpa using hnd
      have haccnd' : ((acc ++ [((mkRule toASCII rule).punySuffix, mkRule toASCII rule)]).map
          Prod.fst).Nodup := by
        rw [List.map_append, List.nodup_append]
        refine ⟨haccnd, by simp, ?_⟩
        intro a ha hb
        simp only [List.map_cons, List.map_nil, List.mem_singleton] at hb
        subst hb
        exact hkey ha
      obtain ⟨msg, hmsg⟩ := rulesByPunySuffixAux_err toASCII rest _ hnd' haccnd'
      refine ⟨msg, ?_⟩
      simp only [rulesByPunySuffixAux, hlk, Bool.false_eq_true, if_false]
      exact hmsg

/-! ### Behaviour of handlePunycode -/

theorem handlePunycode_mk (toASCII : String → String) (d : String)
    (i : String) (tld sld dom sub : Option String) (listed : Bool) :
    handlePunycode toASCII d
      { input := i, tld := tld, sld := sld, domain := dom, subdomain := sub,
        listed := listed } =
      { input := i, tld := tld, sld := sld,
        domain := if hasXnMarker d = true ∧ truthy dom = true then dom.map toASCII else dom,
        subdomain := if hasXnMarker d = true ∧ truthy sub = true then sub.map toASCII else sub,
        listed := listed } := by
  unfold handlePunycode
  by_cases hm : hasXnMarker d = true
  · rw [hm]
    by_cases hd : truthy dom = true
    · by_cases hs : truthy sub = true
      · simp [hd, hs, hm]
      · simp [hd, hs, hm]
    · by_cases hs : truthy sub = true
      · simp [hd, hs, hm]
      · simp [hd, hs, hm]
  · have hm' : hasXnMarker d = false := by
      simpa using hm
    simp [hm', hm]

theorem handlePunycode_of_not_marker (toASCII : String → String) {d : String}
    (p : Parsed) (h : hasXnMarker d = false) :
    handlePunycode toASCII d p = p := by
  unfold handlePunycode
  simp [h]

theorem handlePunycode_none_fields (toASCII : String → String) (d : String)
    {p : Parsed} (hd : p.domain = none) (hs : p.subdomain = none) :
    handlePunycode toASCII d p = p := by
  unfold handlePunycode
  by_cases hm : hasXnMarker d = true
  · simp [hm, hd, hs, truthy]
  · simp [hm]

/-! ### The unlisted-TLD branch -/

theorem dot_join_ne_empty (s t : String) : s ++ "." ++ t ≠ "" := by
  intro h
  have hlen := congrArg String.length h
  rw [str_length_append, str_length_append] at hlen
  have h1 : ("." : String).length = 1 := rfl
  have h0 : ("" : String).length = 0 := rfl
  omega

theorem parseUnlisted_spec (toASCII : String → String) (d : String) (p0 : Parsed)
    (leading : List String) (s t : String) :
    parseUnlisted toASCII d p0 (leading ++ [s, t]) =
      .parsed (handlePunycode toASCII d
        { p0 with tld := some t, sld := some s,
                  domain := some (s ++ "." ++ t), subdomain := leading.getLast? }) := by
  have hassoc : leading ++ [s, t] = (leading ++ [s]) ++ [t] := by simp
  have hlen : ¬ (leading ++ [s, t]).length < 2 := by
    simp only [List.length_append, List.length_cons, List.length_nil]
    omega
  unfold parseUnlisted
  rw [if_neg hlen, hassoc]
  simp only [List.getLast?_concat, List.dropLast_concat]
  cases leading with
  | nil => simp [optStr]
  | cons x xs => simp [optStr]

theorem parse_unlisted_general (toASCII : String → String) (ruleMap : RuleMap)
    (input : String) (leading : List String) (s t : String)
    (hval : validate toASCII (normalizeDomain input) = none)
    (hparts : splitDots (normalizeDomain input) = leading ++ [s, t])
    (hlocal : t ≠ "local")
    (hfind : findRule toASCII ruleMap (normalizeDomain input) = none) :
    parse toASCII ruleMap input =
      .parsed (handlePunycode toASCII (normalizeDomain input)
        { input := input, tld := some t, sld := some s,
          domain := some (s ++ "." ++ t), subdomain := leading.getLast?,
          listed := false }) := by
  have hgl : (leading ++ [s, t]).getLast? = some t := by
    rw [show leading ++ [s, t] = (leading ++ [s]) ++ [t] by simp]
    exact List.getLast?_concat _
  unfold parse parseDomain
  rw [hval]
  simp only [hparts, hfind, hgl]
  rw [if_neg (by simp [hlocal])]
  rw [parseUnlisted_spec]

/-! ### Claim C1 -/

/-- C1, counterexample: on the validated, non-local, unmatched domain
"a.b.c.d" (n = 4 labels) the claim demands `subdomain = "a.b"` (all leading
labels joined), but the source pops a single label: `subdomain = "b"`. -/
theorem c1_counterexample :
    parse (fun s => s) [] "a.b.c.d" =
      .parsed { input := "a.b.c.d", tld := some "d", sld := some "c",
                domain := some "c.d", subdomain := some "b", listed := false } ∧
      (some "b" : Option String) ≠ some "a.b" := by
  constructor
  · decide
  · decide

/-- C1 as amended: for a validated input whose last label is not "local"
and no rule matches, with labels `leading ++ [s, t]` (n ≥ 2), `parse`
returns tld = t, sld = s, domain = s ++ "." ++ t, listed = false, and
subdomain = the LAST remaining leading label only (`leading.getLast?`,
null when n = 2), not all leading labels joined. -/
theorem c1_unlisted_single_popped_subdomain (toASCII : String → String)
    (ruleMap : RuleMap) (input : String) (leading : List String) (s t : String)
    (hval : validate toASCII (normalizeDomain input) = none)
    (hparts : splitDots (normalizeDomain input) = leading ++ [s, t])
    (hlocal : t ≠ "local")
    (hfind : findRule toASCII ruleMap (normalizeDomain input) = none)
    (hmarker : hasXnMarker (normalizeDomain input) = false) :
    parse toASCII ruleMap input =
      .parsed { input := input, tld := some t, sld := some s,
                domain := some (s ++ "." ++ t), subdomain := leading.getLast?,
                listed := false } := by
  rw [parse_unlisted_general toASCII ruleMap input leading s t hval hparts hlocal hfind,
    handlePunycode_of_not_marker _ _ hmarker]

/-- C1 witness: the amended theorem applied at the concrete input
"a.b.c.d" with the identity encoder and an empty rule index. -/
theorem c1_witness :
    parse (fun s => s) [] "x.y.c.d" =
      .parsed { input := "x.y.c.d", tld := some "d", sld := some "c",
                domain := some "c.d",
                subdomain := (["x", "y"] : List String).getLast?,
                listed := false } :=
  c1_unlisted_single_popped_subdomain (fun s => s) [] "x.y.c.d" ["x", "y"] "c" "d"
    (by decide) (by decide) (by decide) (by decide) (by decide)

/-! ### Claim C3 -/

/-- C3: `parse` re-encodes the derived `domain`/`subdomain` fields through
the ASCII-compatible encoder iff the lowercased, dot-stripped domain
contains the marker "xn--": with the marker absent `handlePunycode` is the
identity, with it present the truthy fields are mapped through the
encoder, and the re-encoding also applies to the unlisted-TLD branch of
`parse`. -/
theorem c3_xn_marker_gates_reencoding :
    (∀ (toASCII : String → String) (d : String) (p : Parsed),
      (hasXnMarker d = false → handlePunycode toASCII d p = p) ∧
      (hasXnMarker d = true →
        handlePunycode toASCII d p =
          { p with
            domain := if truthy p.domain = true then p.domain.map toASCII else p.domain,
            subdomain :=
              if truthy p.subdomain = true then p.subdomain.map toASCII
              else p.subdomain })) ∧
    (∀ (toASCII : String → String) (ruleMap : RuleMap) (input : String)
      (leading : List String) (s t : String),
      validate toASCII (normalizeDomain input) = none →
      splitDots (normalizeDomain input) = leading ++ [s, t] →
      t ≠ "local" →
      findRule toASCII ruleMap (normalizeDomain input) = none →
      hasXnMarker (normalizeDomain input) = true →
      ∃ p, parse toASCII ruleMap input = ParseResult.parsed p ∧
        p.domain = some (toASCII (s ++ "." ++ t))) := by
  constructor
  · intro toASCII d p
    constructor
    · exact handlePunycode_of_not_marker toASCII p
    · intro hm
      obtain ⟨i, tld, sld, dom, sub, listed⟩ := p
      rw [handlePunycode_mk]
      simp [hm]
  · intro toASCII ruleMap input leading s t hval hparts hlocal hfind hm
    refine ⟨_,
      parse_unlisted_general toASCII ruleMap input leading s t hval hparts hlocal hfind,
      ?_⟩
    rw [handlePunycode_mk]
    have htr : truthy (some (s ++ "." ++ t)) = true := by
      simp [truthy, dot_join_ne_empty]
    simp [hm, htr]

/-- C3 witness: with marker present in the domain, the `domain` field is
re-encoded (here with a visibly non-identity encoder). -/
theorem c3_witness :
    handlePunycode (fun s => "a" ++ s) "xn--q"
      { input := "i", tld := some "t", sld := some "s", domain := some "s.t",
        subdomain := none, listed := true } =
      { input := "i", tld := some "t", sld := some "s", domain := some "as.t",
        subdomain := none, listed := true } := by
  rw [(c3_xn_marker_gates_reencoding.1 (fun s => "a" ++ s) "xn--q" _).2 (by decide)]
  decide

/-! ### Claim C2 -/

theorem lookup_mem : ∀ {m : RuleMap} {k : String} {r : PslRule},
    m.lookup k = some r → (k, r) ∈ m
  | [], k, r, h => by simp [List.lookup] at h
  | (a, b) :: rest, k, r, h => by
    cases hka : (k == a) with
    | true =>
      have hk : k = a := by
        simpa using hka
      simp only [List.lookup, hka] at h
      cases h
      simp [hk]
    | false =>
      simp only [List.lookup, hka] at h
      exact List.mem_cons_of_mem _ (lookup_mem h)

/-- C2: when the rule index has an entry for a suffix at label position `i`
of the encoded domain and any entry exists for a strictly shorter suffix
at position `j > i`, `findRule` returns a rule found at some position
`k ≤ i` — the first hit scanning from the whole domain leftmost-label-first
— whose recorded ASCII suffix is strictly longer than the shorter suffix,
so the shorter rule is never selected. -/
theorem c2_longest_match_wins (toASCII : String → String) (ruleMap : RuleMap)
    (domain : String) (chunks : List String) (i j : Nat)
    (hwf : (ruleMap.all fun kv => kv.2.punySuffix == kv.1) = true)
    (hchunks : splitDots (toASCII domain) = chunks)
    (hij : i < j) (hj : j < chunks.length)
    (hXS : (ruleMap.lookup (joinDots (chunks.drop i))).isSome = true) :
    ∃ r k, findRule toASCII ruleMap domain = some r ∧ k ≤ i ∧
      ruleMap.lookup (joinDots (chunks.drop k)) = some r ∧
      (joinDots (chunks.drop j)).length < r.punySuffix.length := by
  have hi : i < chunks.length := by omega
  obtain ⟨k, hki, heq, hsome⟩ := findRuleAux_first_hit ruleMap chunks i hi hXS
  cases hr : ruleMap.lookup (joinDots (chunks.drop k)) with
  | none => simp [hr] at hsome
  | some r =>
    refine ⟨r, k, ?_, hki, hr, ?_⟩
    · rw [findRule, hchunks, heq, hr]
    · have hmem := lookup_mem hr
      have hpuny : r.punySuffix = joinDots (chunks.drop k) := by
        have := List.all_eq_true.mp hwf _ hmem
        simpa using this
      rw [hpuny]
      exact joinDots_drop_length_lt (by omega) hj

/-- C2 witness: with rules for both "com" and the longer "uk.com" in the
index, the domain "x.uk.com" resolves to the "uk.com" rule. -/
theorem c2_witness :
    ∃ r k,
      findRule (fun s => s)
        [("com", mkRule (fun s => s) "com"), ("uk.com", mkRule (fun s => s) "uk.com")]
        "x.uk.com" = some r ∧
      k ≤ 1 ∧
      (([("com", mkRule (fun s => s) "com"),
         ("uk.com", mkRule (fun s => s) "uk.com")] : RuleMap).lookup
        (joinDots ((["x", "uk", "com"] : List String).drop k)) = some r) ∧
      (joinDots ((["x", "uk", "com"] : List String).drop 2)).length < r.punySuffix.length :=
  c2_longest_match_wins (fun s => s)
    [("com", mkRule (fun s => s) "com"), ("uk.com", mkRule (fun s => s) "uk.com")]
    "x.uk.com" ["x", "uk", "com"] 1 2
    (by decide) (by decide) (by decide) (by decide) (by decide)

/-! ### Claim C4 -/

/-- C4: building the rule index from a list in which two rule lines encode
to the same ASCII suffix raises a configuration error, and with pairwise
distinct encoded suffixes it succeeds with exactly one entry per rule,
keyed by the rule's ASCII-encoded suffix, in order. -/
theorem c4_duplicate_suffix_fatal (toASCII : String → String) (rules : List String) :
    (¬ (rules.map fun r => (mkRule toASCII r).punySuffix).Nodup →
      ∃ msg, rulesByPunySuffix toASCII rules = .error msg) ∧
    ((rules.map fun r => (mkRule toASCII r).punySuffix).Nodup →
      rulesByPunySuffix toASCII rules =
        .ok (rules.map fun r => ((mkRule toASCII r).punySuffix, mkRule toASCII r))) := by
  constructor
  · intro hnd
    exact rulesByPunySuffixAux_err toASCII rules [] (by simpa using hnd) (by simp)
  · intro hnd
    have := rulesByPunySuffixAux_ok toASCII rules [] (by simpa using hnd)
    simpa [rulesByPunySuffix] using this

/-- C4 witness: the duplicate list causes an error, the duplicate-free
list builds one entry per rule. -/
theorem c4_witness :
    (∃ msg, rulesByPunySuffix (fun s => s) ["com", "com"] = .error msg) ∧
    rulesByPunySuffix (fun s => s) ["com", "net"] =
      .ok ((["com", "net"] : List String).map fun r =>
        ((mkRule (fun s => s) r).punySuffix, mkRule (fun s => s) r)) :=
  ⟨(c4_duplicate_suffix_fatal (fun s => s) ["com", "com"]).1 (by decide),
   (c4_duplicate_suffix_fatal (fun s => s) ["com", "net"]).2 (by decide)⟩

/-! ### Entering the listed branch -/

theorem parse_listed_general (toASCII : String → String) (ruleMap : RuleMap)
    (input : String) (parts : List String) (rule : PslRule)
    (hval : validate toASCII (normalizeDomain input) = none)
    (hparts : splitDots (normalizeDomain input) = parts)
    (hlocal : parts.getLast? ≠ some "local")
    (hfind : findRule toASCII ruleMap (normalizeDomain input) = some rule) :
    parse toASCII ruleMap input =
      parseListed toASCII (normalizeDomain input) { input := input } parts rule := by
  unfold parse parseDomain
  rw [hval]
  simp only [hparts, hfind]
  rw [if_neg hlocal]

/-! ### Claim C5 -/

/-- C5: for a wildcard rule with suffix P (no exception) matching the
validated, non-local domain a.P, `parse` treats a.P itself as the listed
public suffix: listed = true, tld = "a.P", and sld, domain, subdomain
null — exactly one extra label is consumed into the suffix. -/
theorem c5_wildcard_consumes_one (toASCII : String → String) (ruleMap : RuleMap)
    (input : String) (a : String) (pParts : List String) (rule : PslRule)
    (hval : validate toASCII (normalizeDomain input) = none)
    (hparts : splitDots (normalizeDomain input) = a :: pParts)
    (hsuf : splitDots rule.suffix = pParts)
    (hlocal : (a :: pParts).getLast? ≠ some "local")
    (hfind : findRule toASCII ruleMap (normalizeDomain input) = some rule)
    (hw : rule.wildcard = true) (hx : rule.exception = false) :
    parse toASCII ruleMap input =
      .parsed { input := input, tld := some (a ++ "." ++ rule.suffix),
                sld := none, domain := none, subdomain := none, listed := true } := by
  have hpne : pParts ≠ [] := by
    rw [← hsuf]
    exact splitChars_ne_nil _
  have hjoin : joinDots (a :: pParts) = a ++ "." ++ rule.suffix := by
    rw [joinDots_cons_of_ne_nil a hpne]
    have : joinDots pParts = rule.suffix := by
      rw [← hsuf, joinDots_splitDots]
    rw [this]
  have hslice1 : jsSliceUpTo (a :: pParts) 1 = [a] := by
    simp [jsSliceUpTo]
  rw [parse_listed_general toASCII ruleMap input (a :: pParts) rule hval hparts hlocal hfind]
  unfold parseListed
  simp only [hsuf, hx, hw, Bool.false_eq_true, if_false, if_true, List.length_cons,
    Nat.cast_add, Nat.cast_one, add_sub_cancel_left, hslice1]
  simp only [List.length_cons, List.length_nil]
  norm_num
  simp only [List.getLast?_singleton, optStr, List.dropLast_single, List.length_nil, if_true]
  rw [hjoin]
  exact handlePunycode_none_fields toASCII _ rfl rfl

/-! ### Claim C10 -/

/-- C10: for a wildcard rule with suffix P, parsing the bare suffix P
itself returns listed = true with tld = P and sld, domain, subdomain all
null: the empty private-label list is returned before the wildcard's
label-consumption step runs. -/
theorem c10_wildcard_bare_suffix (toASCII : String → String) (ruleMap : RuleMap)
    (input : String) (pParts : List String) (rule : PslRule)
    (hval : validate toASCII (normalizeDomain input) = none)
    (hparts : splitDots (normalizeDomain input) = pParts)
    (hsuf : splitDots rule.suffix = pParts)
    (hlocal : pParts.getLast? ≠ some "local")
    (hfind : findRule toASCII ruleMap (normalizeDomain input) = some rule)
    (_hw : rule.wildcard = true) (hx : rule.exception = false) :
    parse toASCII ruleMap input =
      .parsed { input := input, tld := some rule.suffix,
                sld := none, domain := none, subdomain := none, listed := true } := by
  have hjoin : joinDots pParts = rule.suffix := by
    rw [← hsuf, joinDots_splitDots]
  have hslice :
      jsSliceUpTo pParts (((pParts.length : Nat) : Int) - ((pParts.length : Nat) : Int)) = [] := by
    have h1 : (((pParts.length : Nat) : Int) - ((pParts.length : Nat) : Int)) = 0 := by omega
    rw [h1]
    simp [jsSliceUpTo]
  rw [parse_listed_general toASCII ruleMap input pParts rule hval hparts hlocal hfind]
  unfold parseListed
  simp only [hsuf, hslice, hx, Bool.false_eq_true, if_false, List.length_nil, if_true]
  rw [hjoin]
  exact congrArg ParseResult.parsed
    (@handlePunycode_none_fields toASCII (normalizeDomain input)
      { input := input, tld := some rule.suffix, sld := none, domain := none,
        subdomain := none, listed := true } rfl rfl)

/-! ### Claim C6 -/

/-- C6: for an exception rule with suffix labels `aLbl :: pParts` matching
the validated, non-local domain a.P exactly, `parse` carves the exception
label out of the suffix before computing the tld: listed = true,
sld = the exception label, tld = the unwildcarded remainder P, domain =
a.P, subdomain null — and the wildcard consumption step does not also
run (an exception rule is never a wildcard rule). -/
theorem c6_exception_carves_out_label (toASCII : String → String) (ruleMap : RuleMap)
    (input : String) (aLbl : String) (pParts : List String) (rule : PslRule)
    (hval : validate toASCII (normalizeDomain input) = none)
    (hparts : splitDots (normalizeDomain input) = aLbl :: pParts)
    (hsuf : splitDots rule.suffix = aLbl :: pParts)
    (hlocal : (aLbl :: pParts).getLast? ≠ some "local")
    (hfind : findRule toASCII ruleMap (normalizeDomain input) = some rule)
    (hx : rule.exception = true) (hw : rule.wildcard = false)
    (htoa : toASCII (aLbl ++ "." ++ joinDots pParts) = aLbl ++ "." ++ joinDots pParts) :
    parse toASCII ruleMap input =
      .parsed { input := input, tld := some (joinDots pParts), sld := some aLbl,
                domain := some (aLbl ++ "." ++ joinDots pParts), subdomain := none,
                listed := true } := by
  have hslice0 : jsSliceUpTo (aLbl :: pParts) 0 = [] := by
    simp [jsSliceUpTo]
  have hdom :
      (if hasXnMarker (normalizeDomain input) = true ∧
          truthy (some (aLbl ++ "." ++ joinDots pParts)) = true
        then (some (aLbl ++ "." ++ joinDots pParts)).map toASCII
        else some (aLbl ++ "." ++ joinDots pParts)) =
        some (aLbl ++ "." ++ joinDots pParts) := by
    split
    · simp [htoa]
    · rfl
  rw [parse_listed_general toASCII ruleMap input (aLbl :: pParts) rule hval hparts hlocal hfind]
  unfold parseListed
  simp only [hsuf, hx, hw, if_true, Bool.false_eq_true, if_false, sub_self, hslice0,
    List.nil_append, List.length_cons, List.length_nil, List.dropLast_single,
    List.getLast?_singleton, optStr]
  norm_num
  rw [handlePunycode_mk]
  simp [truthy, hdom]
  intro _ _
  exact htoa

/-- C5 witness: with the wildcard rule line "*.ck" indexed under "ck",
parsing "a.ck" yields listed = true, tld = "a.ck" and no sld/domain. -/
theorem c5_witness :
    parse (fun s => s) [("ck", mkRule (fun s => s) "*.ck")] "a.ck" =
      .parsed { input := "a.ck",
                tld := some ("a" ++ "." ++ (mkRule (fun s => s) "*.ck").suffix),
                sld := none, domain := none, subdomain := none, listed := true } :=
  c5_wildcard_consumes_one (fun s => s) [("ck", mkRule (fun s => s) "*.ck")]
    "a.ck" "a" ["ck"] (mkRule (fun s => s) "*.ck")
    (by decide) (by decide) (by decide) (by decide) (by decide) (by decide) (by decide)

/-- C10 witness: with the wildcard rule line "*.ck" indexed under "ck",
parsing the bare suffix "ck" yields listed = true, tld = "ck" only. -/
theorem c10_witness :
    parse (fun s => s) [("ck", mkRule (fun s => s) "*.ck")] "ck" =
      .parsed { input := "ck", tld := some (mkRule (fun s => s) "*.ck").suffix,
                sld := none, domain := none, subdomain := none, listed := true } :=
  c10_wildcard_bare_suffix (fun s => s) [("ck", mkRule (fun s => s) "*.ck")]
    "ck" ["ck"] (mkRule (fun s => s) "*.ck")
    (by decide) (by decide) (by decide) (by decide) (by decide) (by decide) (by decide)

/-- C6 witness: with the exception rule line "!www.ck" indexed under
"www.ck", parsing "www.ck" yields sld = "www", tld = "ck",
domain = "www.ck". -/
theorem c6_witness :
    parse (fun s => s) [("www.ck", mkRule (fun s => s) "!www.ck")] "www.ck" =
      .parsed { input := "www.ck", tld := some (joinDots ["ck"]),
                sld := some "www",
                domain := some ("www" ++ "." ++ joinDots ["ck"]),
                subdomain := none, listed := true } :=
  c6_exception_carves_out_label (fun s => s)
    [("www.ck", mkRule (fun s => s) "!www.ck")] "www.ck" "www" ["ck"]
    (mkRule (fun s => s) "!www.ck")
    (by decide) (by decide) (by decide) (by decide) (by decide) (by decide) (by decide)
    (by decide)

/-! ### Claim C8 -/

theorem parseUnlisted_ne_error (toASCII : String → String) (d : String) (p0 : Parsed)
    (parts : List String) (e : ParseError) :
    parseUnlisted toASCII d p0 parts ≠ .error e := by
  unfold parseUnlisted
  repeat' split
  all_goals simp

theorem parseListed_ne_error (toASCII : String → String) (d : String) (p0 : Parsed)
    (parts : List String) (rule : PslRule) (e : ParseError) :
    parseListed toASCII d p0 parts rule ≠ .error e := by
  unfold parseListed
  cases hs : splitDots rule.suffix
  all_goals repeat' split
  all_goals dsimp only
  all_goals split_ifs
  all_goals simp

theorem parse_error_message (toASCII : String → String) (ruleMap : RuleMap)
    (input : String) (e : ParseError) (h : parse toASCII ruleMap input = .error e) :
    e.message = errorCodes e.code := by
  unfold parse parseDomain at h
  cases hv : validate toASCII (normalizeDomain input) with
  | some code =>
    rw [hv] at h
    simp only [ParseResult.error.injEq] at h
    rw [← h]
  | none =>
    rw [hv] at h
    simp only at h
    split at h
    · simp at h
    · cases hf : findRule toASCII ruleMap (normalizeDomain input) with
      | none =>
        rw [hf] at h
        exact absurd h (parseUnlisted_ne_error _ _ _ _ _)
      | some rule =>
        rw [hf] at h
        exact absurd h (parseListed_ne_error _ _ _ _ _ _)

/-- C8: `parse` raises (a thrown `TypeError`, modelled by the `Except`
error of `parseJS`) iff its argument is not a string; on every string
argument it returns normally, and the returned value is exactly one of an
`error` record whose message is the fixed table entry for its code, or a
`parsed` record. -/
theorem c8_raises_iff_not_string (toASCII : String → String) (ruleMap : RuleMap) :
    (∀ v : JsInput,
      (∃ m, parseJS toASCII ruleMap v = .error m) ↔ v = JsInput.notAString) ∧
    (∀ s : String, ∃ r, parseJS toASCII ruleMap (JsInput.str s) = .ok r ∧
      ((∃ e, r = ParseResult.error e ∧ e.message = errorCodes e.code) ∨
        (∃ p, r = ParseResult.parsed p)) ∧
      ¬ ((∃ e, r = ParseResult.error e) ∧ (∃ p, r = ParseResult.parsed p))) := by
  constructor
  · intro v
    constructor
    · rintro ⟨m, hm⟩
      cases v with
      | str s => simp [parseJS] at hm
      | notAString => rfl
    · rintro rfl
      exact ⟨_, rfl⟩
  · intro s
    refine ⟨parse toASCII ruleMap s, rfl, ?_, ?_⟩
    · cases hp : parse toASCII ruleMap s with
      | error e =>
        exact Or.inl ⟨e, rfl, parse_error_message _ _ _ _ hp⟩
      | parsed p => exact Or.inr ⟨p, rfl⟩
    · rintro ⟨⟨e, he⟩, ⟨p, hp⟩⟩
      rw [he] at hp
      simp at hp

/-- C8 witness: a non-string argument raises, the string "example"
returns normally. -/
theorem c8_witness :
    (∃ m, parseJS (fun s => s) [] JsInput.notAString = .error m) ∧
    ∃ r, parseJS (fun s => s) [] (JsInput.str "example") = .ok r ∧
      ((∃ e, r = ParseResult.error e ∧ e.message = errorCodes e.code) ∨
        (∃ p, r = ParseResult.parsed p)) ∧
      ¬ ((∃ e, r = ParseResult.error e) ∧ (∃ p, r = ParseResult.parsed p)) :=
  ⟨((c8_raises_iff_not_string (fun s => s) []).1 JsInput.notAString).mpr rfl,
   (c8_raises_iff_not_string (fun s => s) []).2 "example"⟩

/-! ### Claim C9 -/

/-- C9: the validator short-circuits in a fixed order.  Whole-string
length first (too short, then too long), then labels left to right with
the first failing label's first failing check reported; it passes iff the
length is in range and every label clears every check. -/
theorem c9_validator_fixed_order (toASCII : String → String) (input : String) :
    (validate toASCII input = none ↔
      1 ≤ (toASCII input).length ∧ (toASCII input).length ≤ 255 ∧
      ∀ l ∈ splitDots (toASCII input),
        l.length ≠ 0 ∧ l.length ≤ 63 ∧ l.data.head? ≠ some '-' ∧
        l.data.getLast? ≠ some '-' ∧ l.data.all isAllowedLabelChar = true) ∧
    ((toASCII input).length < 1 → validate toASCII input = some .DOMAIN_TOO_SHORT) ∧
    (1 ≤ (toASCII input).length → 255 < (toASCII input).length →
      validate toASCII input = some .DOMAIN_TOO_LONG) ∧
    (∀ (pre : List String) (l : String) (post : List String),
      1 ≤ (toASCII input).length → (toASCII input).length ≤ 255 →
      splitDots (toASCII input) = pre ++ l :: post →
      (∀ l' ∈ pre, checkLabel l' = none) → checkLabel l ≠ none →
      validate toASCII input = checkLabel l) ∧
    (∀ l : String,
      (l.length = 0 → checkLabel l = some .LABEL_TOO_SHORT) ∧
      (l.length ≠ 0 → 63 < l.length → checkLabel l = some .LABEL_TOO_LONG) ∧
      (l.length ≠ 0 → l.length ≤ 63 → l.data.head? = some '-' →
        checkLabel l = some .LABEL_STARTS_WITH_DASH) ∧
      (l.length ≠ 0 → l.length ≤ 63 → l.data.head? ≠ some '-' →
        l.data.getLast? = some '-' → checkLabel l = some .LABEL_ENDS_WITH_DASH) ∧
      (l.length ≠ 0 → l.length ≤ 63 → l.data.head? ≠ some '-' →
        l.data.getLast? ≠ some '-' → l.data.all isAllowedLabelChar = false →
        checkLabel l = some .LABEL_INVALID_CHARS)) := by
  refine ⟨?_, ?_, ?_, ?_, ?_⟩
  · by_cases h1 : (toASCII input).length < 1
    · simp only [validate, h1, if_true]
      constructor
      · intro h
        simp at h
      · intro h
        omega
    · by_cases h2 : 255 < (toASCII input).length
      · simp only [validate, h1, if_false, h2, if_true]
        constructor
        · intro h
          simp at h
        · intro h
          omega
      · simp only [validate, h1, if_false, h2, if_false]
        rw [checkLabels_eq_none_iff]
        constructor
        · intro h
          refine ⟨by omega, by omega, fun l hl => ?_⟩
          have := (checkLabel_eq_none_iff l).mp (h l hl)
          refine ⟨?_, this.2.1, this.2.2.1, this.2.2.2.1, this.2.2.2.2⟩
          intro hc
          apply this.1
          have : l.data.length = 0 := hc
          simpa [List.length_eq_zero] using this
        · rintro ⟨-, -, h⟩ l hl
          rw [checkLabel_eq_none_iff]
          obtain ⟨ha, hb, hc, hd, he⟩ := h l hl
          exact ⟨ha, hb, hc, hd, he⟩
  · intro h
    simp only [validate, h, if_true]
  · intro h1 h2
    have h1' : ¬ (toASCII input).length < 1 := by omega
    simp only [validate, h1', if_false, h2, if_true]
  · intro pre l post h1 h2 hsplit hpre hl
    have h1' : ¬ (toASCII input).length < 1 := by omega
    have h2' : ¬ 255 < (toASCII input).length := by omega
    simp only [validate, h1', if_false, h2', if_false]
    rw [hsplit]
    exact checkLabels_first_failure pre l post hpre hl
  · intro l
    refine ⟨?_, ?_, ?_, ?_, ?_⟩
    · intro h0
      simp only [checkLabel, h0, if_true]
    · intro h0 h1
      simp only [checkLabel, h0, if_false, h1, if_true]
    · intro h0 h1 h2
      have h1' : ¬ 63 < l.length := by omega
      simp only [checkLabel, h0, if_false, h1', h2, if_true]
    · intro h0 h1 h2 h3
      have h1' : ¬ 63 < l.length := by omega
      simp only [checkLabel, h0, if_false, h1', h2, h3, if_true]
    · intro h0 h1 h2 h3 h4
      have h1' : ¬ 63 < l.length := by omega
      have hreg : (!labelRegexTest l) = true := by
        simp [labelRegexTest, h4]
      simp only [checkLabel, h0, if_false, h1', h2, h3, hreg, if_true]

/-- C9 witness: the first failing check of the first failing label is
reported: "-bad.com" yields LABEL_STARTS_WITH_DASH. -/
theorem c9_witness :
    validate (fun s => s) "-bad.com" = checkLabel "-bad" ∧
    checkLabel "-bad" = some ErrorCode.LABEL_STARTS_WITH_DASH :=
  ⟨(c9_validator_fixed_order (fun s => s) "-bad.com").2.2.2.1 [] "-bad" ["com"]
      (by decide) (by decide) (by decide) (by decide) (by decide),
   by decide⟩

/-! ### Claim C7 -/

theorem char_toNat_ofNat {n : Nat} (h : n < 55296) : (Char.ofNat n).toNat = n := by
  rw [Char.ofNat, dif_pos (Or.inl h)]
  rfl

theorem toLower_eq_dot_iff (c : Char) : Char.toLower c = '.' ↔ c = '.' := by
  constructor
  · intro h
    simp only [Char.toLower] at h
    by_cases hcond : c.toNat ≥ 65 ∧ c.toNat ≤ 90
    · rw [if_pos hcond] at h
      have h46 : (Char.ofNat (c.toNat + 32)).toNat = c.toNat + 32 :=
        char_toNat_ofNat (by omega)
      rw [h] at h46
      have hdot : ('.').toNat = 46 := rfl
      omega
    · rwa [if_neg hcond] at h
  · intro h
    subst h
    decide

theorem jsToLower_append_dot (s : String) :
    jsToLower (s ++ ".") = jsToLower s ++ "." := by
  apply String.ext
  show (s.data ++ ['.']).map Char.toLower = s.data.map Char.toLower ++ ['.']
  rw [List.map_append]
  simp

theorem normalizeDomain_dot (s : String) (h : s.data.getLast? ≠ some '.') :
    normalizeDomain (s ++ ".") = jsToLower s ∧ normalizeDomain s = jsToLower s := by
  constructor
  · unfold normalizeDomain
    rw [jsToLower_append_dot]
    have hlast : (jsToLower s ++ ".").data.getLast? = some '.' := by
      show ((jsToLower s).data ++ ['.']).getLast? = some '.'
      exact List.getLast?_concat _
    rw [if_pos hlast]
    apply String.ext
    show ((jsToLower s).data ++ ['.']).dropLast = (jsToLower s).data
    exact List.dropLast_concat
  · unfold normalizeDomain
    have hlast : (jsToLower s).data.getLast? ≠ some '.' := by
      show (s.data.map Char.toLower).getLast? ≠ some '.'
      rw [List.getLast?_map]
      intro hc
      cases hg : s.data.getLast? with
      | none =>
        rw [hg] at hc
        simp at hc
      | some c =>
        rw [hg] at hc
        have hlow : Char.toLower c = '.' := by
          simpa using hc
        have hcdot : c = '.' := (toLower_eq_dot_iff c).mp hlow
        exact h (hg.trans (by rw [hcdot]))
    rw [if_neg hlast]

theorem parseDomain_setInput (toASCII : String → String) (m : RuleMap)
    (i1 i2 d : String) :
    parseDomain toASCII m i1 d = setInput (parseDomain toASCII m i2 d) i1 := by
  unfold parseDomain
  cases hv : validate toASCII d with
  | some code => simp [setInput]
  | none =>
    dsimp only
    by_cases hl : (splitDots d).getLast? = some "local"
    · rw [if_pos hl, if_pos hl]
      simp [setInput]
    · rw [if_neg hl, if_neg hl]
      cases hf : findRule toASCII m d with
      | none =>
        unfold parseUnlisted
        by_cases hlen : (splitDots d).length < 2
        · rw [if_pos hlen, if_pos hlen]
          simp [setInput]
        · rw [if_neg hlen, if_neg hlen]
          dsimp only
          simp [handlePunycode_mk, setInput]
      | some rule =>
        unfold parseListed
        cases hs : splitDots rule.suffix
        all_goals dsimp only
        all_goals split_ifs
        all_goals simp [handlePunycode_mk, setInput]

/-- C7: lowercasing happens first and exactly one trailing dot is then
stripped: for any string s not ending in a dot, parsing s ++ "." gives
the same outcome as parsing s except for the recorded input, while
"example.com.." keeps one trailing dot and fails validation with the
empty-label error. -/
theorem c7_trailing_dot_once :
    (∀ (toASCII : String → String) (ruleMap : RuleMap) (s : String),
      s.data.getLast? ≠ some '.' →
      parse toASCII ruleMap (s ++ ".") = setInput (parse toASCII ruleMap s) (s ++ ".")) ∧
    parse (fun x => x) [] "example.com.." =
      .error { input := "example.com..",
               message := errorCodes ErrorCode.LABEL_TOO_SHORT,
               code := ErrorCode.LABEL_TOO_SHORT } := by
  constructor
  · intro toASCII ruleMap s h
    obtain ⟨h1, h2⟩ := normalizeDomain_dot s h
    unfold parse
    rw [h1, h2]
    exact parseDomain_setInput toASCII ruleMap (s ++ ".") s (jsToLower s)
  · decide

/-- C7 witness: a single trailing dot is tolerated; "example.com." parses
like "example.com" up to the recorded input. -/
theorem c7_witness :
    parse (fun x => x) [] "example.com." =
      setInput (parse (fun x => x) [] "example.com") "example.com." :=
  c7_trailing_dot_once.1 (fun x => x) [] "example.com" (by decide)
